import Mathlib

set_option maxRecDepth 8000

/-!
A shallow embedding of the muzero-rs repository: the generic MCTS engine
of src/mcts.rs over the Game interface of src/game.rs, together with the
TicTacToe game of src/tic_tac_toe.rs.

Conventions of the embedding:
* Rust panics (todo!(), Option/Result unwrap, array index out of bounds)
  are modelled as explicit error values (`Option.none`, `SearchHalt`,
  `StepErr.indexOutOfBounds`).
* f32 statistics are idealised as rationals; the UCB1 value (which uses
  sqrt and ln) lives in the real numbers.
* the process-global NODE_COUNTER is modelled as a counter local to one
  search call (the spec sanctions this replacement); node ids are
  natural numbers handed out monotonically from 0.
* rand::thread_rng is modelled as an arbitrary stream of naturals
  `rng : ℕ → ℕ`; a uniform choice from a nonempty list `l` is modelled
  as the index `rng 0 % l.length`.
* loops without a structural termination measure (selection, rollout)
  take an explicit fuel argument; running out of fuel is one more way
  to land in the `stuck` outcome that also covers unwrap panics.
-/

deriving instance DecidableEq for Except

namespace Muzero

/-- Players of tic-tac-toe (src/tic_tac_toe.rs, `enum Player`). -/
inductive Player where
  | X
  | O
deriving DecidableEq

/-- One board cell (src/tic_tac_toe.rs, `enum Spot`). -/
inductive Spot where
  | Empty
  | Filled (p : Player)
deriving DecidableEq

/-- The tic-tac-toe state (src/tic_tac_toe.rs, `struct TicTacToe`):
a 3×3 array of spots plus the player to move. -/
structure TicTacToe where
  spots : Fin 3 → Fin 3 → Spot
  currentPlayer : Player

instance : DecidableEq TicTacToe := fun a b =>
  decidable_of_iff (a.spots = b.spots ∧ a.currentPlayer = b.currentPlayer)
    (by cases a; cases b; simp)

/-- Turn alternation, the `match` inside `TicTacToe::step`. -/
def otherPlayer : Player → Player
  | .X => .O
  | .O => .X

/-- One line check of `TicTacToe::check_winner`: the first spot must be
filled and the other two equal to it. -/
def lineW : Spot → Spot → Spot → Option Player
  | .Filled p, b, c => if b = .Filled p ∧ c = .Filled p then some p else none
  | .Empty, _, _ => none

/-- First-some choice, modelling the early `return` in `check_winner`. -/
def orO {α : Type} : Option α → Option α → Option α
  | some a, _ => some a
  | none, o => o

/-- `TicTacToe::check_winner`: rows 0-2, then columns 0-2, then the two
diagonals, first hit wins. -/
def ttCheckWinner (s : TicTacToe) : Option Player :=
  orO (lineW (s.spots 0 0) (s.spots 0 1) (s.spots 0 2)) (
  orO (lineW (s.spots 1 0) (s.spots 1 1) (s.spots 1 2)) (
  orO (lineW (s.spots 2 0) (s.spots 2 1) (s.spots 2 2)) (
  orO (lineW (s.spots 0 0) (s.spots 1 0) (s.spots 2 0)) (
  orO (lineW (s.spots 0 1) (s.spots 1 1) (s.spots 2 1)) (
  orO (lineW (s.spots 0 2) (s.spots 1 2) (s.spots 2 2)) (
  orO (lineW (s.spots 0 0) (s.spots 1 1) (s.spots 2 2)) (
      lineW (s.spots 0 2) (s.spots 1 1) (s.spots 2 0))))))))

/-- `TicTacToe::get_available_moves`: row-major list of the coordinates
of all empty spots. -/
def ttMoves (s : TicTacToe) : List (ℕ × ℕ) :=
  (List.finRange 3).flatMap fun i =>
    (List.finRange 3).filterMap fun j =>
      if s.spots i j = .Empty then some (i.val, j.val) else none

/-- Failure modes of `TicTacToe::step`: the `bail!("Spot is already
filled")` error, and the Rust index-out-of-bounds panic raised by
`self.spots[row][col]` when an index is ≥ 3.  The two are distinct:
only the first is an `Err` value returned to the caller. -/
inductive StepErr where
  | spotFilled
  | indexOutOfBounds
deriving DecidableEq

/-- `TicTacToe::step`.  Returns the post-call state (modelling `&mut
self`) together with the `anyhow::Result<f32>` outcome.  On both
failure paths the code has performed no mutation yet, so the input
state is returned unchanged. -/
def stepTT (s : TicTacToe) (a : ℕ × ℕ) : TicTacToe × Except StepErr ℚ :=
  if hr : a.1 < 3 then
    if hc : a.2 < 3 then
      match s.spots ⟨a.1, hr⟩ ⟨a.2, hc⟩ with
      | .Empty =>
        let s' : TicTacToe :=
          { spots := fun i j =>
              if i = ⟨a.1, hr⟩ ∧ j = ⟨a.2, hc⟩ then .Filled s.currentPlayer
              else s.spots i j
            currentPlayer := otherPlayer s.currentPlayer }
        (s', .ok (if (ttCheckWinner s').isSome then 1 else 0))
      | .Filled _ => (s, .error .spotFilled)
    else (s, .error .indexOutOfBounds)
  else (s, .error .indexOutOfBounds)

/-- `TicTacToe::done`: a winner exists or no move remains. -/
def ttDone (s : TicTacToe) : Bool :=
  (ttCheckWinner s).isSome || (ttMoves s).isEmpty

/-- `TicTacToe::new`: empty board, X to move. -/
def ttNew : TicTacToe := { spots := fun _ _ => .Empty, currentPlayer := .X }

/-- The Game trait of src/game.rs, as a record of operations over a
state type `σ`, an action type `α` and a player type `π`.  `step`
returns `none` where the Rust call would panic or return `Err` under an
engine-side `.unwrap()`. -/
structure GameI (σ α π : Type) where
  step : σ → α → Option (ℚ × σ)
  getAvailableMoves : σ → List α
  currentPlayer : σ → π
  done : σ → Bool
  checkWinner : σ → Option π

/-- The `impl Game for TicTacToe`: the engine-facing view of tic-tac-toe
(`step` collapses both the `Err` and the panic into `none`, which is
what `.unwrap()` on the engine side turns into a dead search). -/
def gameTT : GameI TicTacToe (ℕ × ℕ) Player where
  step s a :=
    match stepTT s a with
    | (s', .ok r) => some (r, s')
    | (_, .error _) => none
  getAvailableMoves := ttMoves
  currentPlayer s := s.currentPlayer
  done := ttDone
  checkWinner := ttCheckWinner

/-- One search-tree node (src/mcts.rs, `struct Node<T>`). -/
structure Node (α π : Type) where
  visits : ℕ
  reward : ℚ
  toPlay : π
  parent : Option ℕ
  children : List (α × ℕ)
  unvisitedActions : List α
  done : Bool
deriving DecidableEq

/-- The arena `type NodeMap<T> = HashMap<NodeId, Node<T>>`, as an
association list keyed by node id. -/
abbrev NodeMap (α π : Type) := List (ℕ × Node α π)

/-- `db.get(&id)`: first entry with the given key. -/
def dbGet {α π : Type} : NodeMap α π → ℕ → Option (Node α π)
  | [], _ => none
  | p :: rest, id => if p.1 = id then some p.2 else dbGet rest id

/-- `db.get_mut(&id)` followed by an overwrite: replace the entry with
the given key, leave everything else untouched. -/
def dbSet {α π : Type} : NodeMap α π → ℕ → Node α π → NodeMap α π
  | [], _, _ => []
  | p :: rest, id, m => (if p.1 = id then (p.1, m) else p) :: dbSet rest id m

/-- The node record built by `Node::new`: zero statistics, the snapshot
of the game state's mover / legal actions / terminality, no children. -/
def newNode {σ α π : Type} (G : GameI σ α π) (g : σ) (parent : Option ℕ) : Node α π :=
  { visits := 0
    reward := 0
    toPlay := G.currentPlayer g
    parent := parent
    children := []
    unvisitedActions := G.getAvailableMoves g
    done := G.done g }

/-- The type of the child-choice procedure `Mcts::best_child` consumed
by selection: from the store and a parent id, an action/child-id pair,
`none` on failure. -/
def Chooser (α π : Type) := NodeMap α π → ℕ → Option (α × ℕ)

/-- `Mcts::selection` (src/mcts.rs lines 72-91): starting from a node,
while the current node is non-terminal and has no unvisited action,
descend to the `choose`-selected child and record the action; stop at
the first terminal or still-unvisited node.  Fuel bounds the loop;
`none` models both fuel exhaustion and the `db.get(..).unwrap()` panic
on a missing id. -/
def selection {α π : Type} (choose : Chooser α π) :
    ℕ → NodeMap α π → ℕ → Option (List α × ℕ)
  | 0, _, _ => none
  | fuel + 1, db, id =>
    match dbGet db id with
    | none => none
    | some n =>
      if n.done then some ([], id)
      else if n.unvisitedActions.isEmpty then
        match choose db id with
        | none => none
        | some (a, cid) =>
          match selection choose fuel db cid with
          | none => none
          | some (p, leaf) => some (a :: p, leaf)
      else some ([], id)

/-- `Mcts::apply_actions`: replay a recorded action list on a cloned
state, `none` if any `step(..).unwrap()` would panic. -/
def applyActions {σ α π : Type} (G : GameI σ α π) : σ → List α → Option σ
  | g, [] => some g
  | g, a :: rest =>
    match G.step g a with
    | none => none
    | some (_, g') => applyActions G g' rest

/-- `Mcts::expansion` (src/mcts.rs lines 103-123).  On a terminal node:
no-op, the node itself is returned and the store is untouched.
Otherwise: pop the LAST unvisited action (`Vec::pop`), apply it to the
game state, create the child node under the fresh id `ctr`, and link it
into the parent's children.  Returns the updated store, the next fresh
id, the expanded node's id and the advanced game state; `none` models
the `unwrap` panics (missing id, empty unvisited list on a non-terminal
node, failing `step`). -/
def expansion {σ α π : Type} (G : GameI σ α π) (db : NodeMap α π) (ctr : ℕ)
    (id : ℕ) (g : σ) : Option (NodeMap α π × ℕ × ℕ × σ) :=
  match dbGet db id with
  | none => none
  | some n =>
    if n.done then some (db, ctr, id, g)
    else
      match n.unvisitedActions.getLast? with
      | none => none
      | some a =>
        match G.step g a with
        | none => none
        | some (_, g') =>
          match dbGet ((ctr, newNode G g' (some id)) ::
              dbSet db id { n with unvisitedActions := n.unvisitedActions.dropLast }) id with
          | none => none
          | some n' =>
            some (dbSet ((ctr, newNode G g' (some id)) ::
                dbSet db id { n with unvisitedActions := n.unvisitedActions.dropLast }) id
                { n' with children := n'.children ++ [(a, ctr)] },
              ctr + 1, ctr, g')

/-- Advance the random stream by one drawn value. -/
def shiftRng (rng : ℕ → ℕ) : ℕ → ℕ := fun n => rng (n + 1)

/-- `Mcts::simulation` (src/mcts.rs lines 125-141): repeatedly, if the
state has a winner stop with it; else if no legal action remains stop
with `none` (draw); else apply the randomly chosen legal action and
recurse.  The outer `Option` is `none` on fuel exhaustion or on an
engine-side unwrap panic; the inner `Option π` is the rollout outcome.
The procedure takes no `NodeMap`: it cannot read or write the store. -/
def simulation {σ α π : Type} (G : GameI σ α π) (rng : ℕ → ℕ) :
    ℕ → σ → Option (Option π)
  | 0, _ => none
  | fuel + 1, g =>
    match G.checkWinner g with
    | some w => some (some w)
    | none =>
      let moves := G.getAvailableMoves g
      if moves.isEmpty then some none
      else
        match moves[rng 0 % moves.length]? with
        | none => none
        | some a =>
          match G.step g a with
          | none => none
          | some (_, g') => simulation G (shiftRng rng) fuel g'

/-- How a call of the live `Mcts::search` ends.  `todoNotImplemented`
is the `todo!()` at src/mcts.rs line 69 reached after the single
selection/expansion/simulation pass; `stuck` covers the unwrap panics
and fuel exhaustion inside the phases. -/
inductive SearchHalt where
  | todoNotImplemented
  | stuck
deriving DecidableEq

/-- Result of a `search` call: the final node store together with the
outcome.  The live code never produces an `Except.ok` action. -/
structure SearchOut (α π : Type) where
  db : NodeMap α π
  result : Except SearchHalt α

/-- The live `Mcts::search` (src/mcts.rs lines 60-70): create the root
node from the caller's state, run selection once, replay the selected
path on a clone, run expansion once, run the rollout once — and then
hit `todo!()`.  There is no iteration budget parameter, no
backpropagation and no final action choice. -/
def mctsSearch {σ α π : Type} (G : GameI σ α π) (choose : Chooser α π)
    (rng : ℕ → ℕ) (fuel : ℕ) (g : σ) : SearchOut α π :=
  let db0 : NodeMap α π := [(0, newNode G g none)]
  match selection choose (fuel + 1) db0 0 with
  | none => ⟨db0, .error .stuck⟩
  | some (path, leaf) =>
    match applyActions G g path with
    | none => ⟨db0, .error .stuck⟩
    | some g1 =>
      match expansion G db0 1 leaf g1 with
      | none => ⟨db0, .error .stuck⟩
      | some (db1, _, _, g2) =>
        match simulation G rng fuel g2 with
        | none => ⟨db1, .error .stuck⟩
        | some _ => ⟨db1, .error .todoNotImplemented⟩

/-- The always-zero random stream, used for concrete evaluations. -/
def rngZero : ℕ → ℕ := fun _ => 0

/-- The running-best fold of the commented-out `best_child`/`best_action`
loops: keep the current best, replace it only when a later element
scores strictly greater. -/
def selectGo {β γ : Type} [LinearOrder γ] (f : β → γ) : β → List β → β
  | best, [] => best
  | best, x :: xs => if f best < f x then selectGo f x xs else selectGo f best xs

/-- Pick from a list the first element attaining the maximal score:
ties are won by the earliest element, a later element must score
strictly greater to displace the incumbent. -/
def selectBestBy {β γ : Type} [LinearOrder γ] (f : β → γ) : List β → Option β
  | [] => none
  | x :: xs => some (selectGo f x xs)

/-- Resolve each `(action, child_id)` entry of a node's children to the
child node itself; `none` models the `db.get(child_id).unwrap()` panic
on a dangling id. -/
def resolveChildren {α π : Type} (db : NodeMap α π) (n : Node α π) :
    Option (List ((α × ℕ) × Node α π)) :=
  n.children.mapM fun p => (dbGet db p.2).map fun cn => (p, cn)

/-- Modelled from the spec: the UCB1 score of a child seen from its
parent (spec §4.3); the live `Mcts::best_child` body is `todo!()`.
The child win-rate `reward / visits` is inverted to the parent's
perspective and the exploration bonus `c * sqrt(2 ln(parent.visits) /
child.visits)` is added. -/
noncomputable def ucb1Value {α π : Type} (c : ℝ) (parentVisits : ℕ)
    (child : Node α π) : ℝ :=
  (1 - (child.reward : ℝ) / (child.visits : ℝ)) +
    c * Real.sqrt (2 * Real.log (parentVisits : ℝ) / (child.visits : ℝ))

/-- Modelled from the spec: `Mcts::best_child` (live body `todo!()`,
src/mcts.rs line 93): among the parent's children, the first one whose
UCB1 value is strictly greater than every predecessor's and not
exceeded later. -/
noncomputable def bestChildUCB {α π : Type} (c : ℝ) (db : NodeMap α π)
    (id : ℕ) : Option (α × ℕ) :=
  (dbGet db id).bind fun n =>
    (resolveChildren db n).bind fun l =>
      (selectBestBy (fun q => ucb1Value c n.visits q.2) l).map fun q => q.1

/-- Modelled from the spec: the parent-perspective value used by the
final best-action choice (spec §4.2 end, §4.3): the inverted win-rate,
with no exploration bonus. -/
noncomputable def finalValue {α π : Type} (child : Node α π) : ℝ :=
  1 - (child.reward : ℝ) / (child.visits : ℝ)

/-- Modelled from the spec: the final recommended-action choice at the
root after the budget is exhausted (absent from the live code, which
stops at `todo!()` before any such choice). -/
noncomputable def bestActionFinal {α π : Type} (db : NodeMap α π) (id : ℕ) :
    Option α :=
  (dbGet db id).bind fun n =>
    (resolveChildren db n).bind fun l =>
      (selectBestBy (fun q => finalValue q.2) l).map fun q => q.1.1

/-- `m` is the first maximum of `l` under the score `f`: `l` splits
around one occurrence of `m`, everything strictly before scores
strictly less, everything after scores at most `f m`. -/
def IsFirstMax {β γ : Type} [LinearOrder γ] (f : β → γ) (l : List β) (m : β) : Prop :=
  ∃ l₁ l₂, l = l₁ ++ m :: l₂ ∧ (∀ x ∈ l₁, f x < f m) ∧ (∀ x ∈ l₂, f x ≤ f m)

/-- The descent relation realised by `Mcts::selection`: from `id`,
following `choose`-chosen children of non-terminal fully-tried nodes,
the recorded action list leads to `leaf`. -/
inductive Descends {α π : Type} (choose : Chooser α π) (db : NodeMap α π) :
    ℕ → List α → ℕ → Prop
  | nil (id : ℕ) : Descends choose db id [] id
  | cons (id : ℕ) (n : Node α π) (a : α) (cid : ℕ) (p : List α) (leaf : ℕ) :
      dbGet db id = some n → n.done = false → n.unvisitedActions = [] →
      choose db id = some (a, cid) → Descends choose db cid p leaf →
      Descends choose db id (a :: p) leaf

/-- The tree-shape invariant of spec §3: the node's children keys and
its unvisited actions are disjoint and together are exactly the legal
actions `legal` recorded at the node's creation. -/
def NodeInv {α π : Type} [DecidableEq α] (legal : List α) (n : Node α π) : Prop :=
  ((n.children.map Prod.fst).toFinset ∪ n.unvisitedActions.toFinset = legal.toFinset) ∧
    ∀ a, a ∈ n.children.map Prod.fst → a ∉ n.unvisitedActions

/-- Build a 3×3 board from a row-major list of rows (missing entries
default to empty); used only to write down concrete test positions. -/
def mkSpots (rows : List (List Spot)) : Fin 3 → Fin 3 → Spot := fun i j =>
  ((rows[i.val]?.getD [])[j.val]?).getD Spot.Empty

/-- A concrete parent node used as a test fixture: two tried children,
no untried action left. -/
def wParent : Node ℕ Player := ⟨2, 0, .X, none, [(10, 1), (11, 2)], [], false⟩

/-- Test fixture child with one visit and one accumulated point. -/
def wChildA : Node ℕ Player := ⟨1, 1, .O, some 0, [], [], false⟩

/-- Test fixture child with one visit and no accumulated point. -/
def wChildB : Node ℕ Player := ⟨1, 0, .O, some 0, [], [], false⟩

/-- Test fixture store holding the parent and its two children. -/
def wDb : NodeMap ℕ Player := [(0, wParent), (1, wChildA), (2, wChildB)]

/-- The resolved children list of `wParent` inside `wDb`. -/
def wChildren : List ((ℕ × ℕ) × Node ℕ Player) := [((10, 1), wChildA), ((11, 2), wChildB)]

/-- A full drawn board (no winner, no empty spot):
X O X / X O O / O X X. -/
def drawG : TicTacToe :=
  { spots := mkSpots
      [[.Filled .X, .Filled .O, .Filled .X],
       [.Filled .X, .Filled .O, .Filled .O],
       [.Filled .O, .Filled .X, .Filled .X]]
    currentPlayer := .X }

theorem dbGet_cons_ne {α π : Type} (k i : ℕ) (n : Node α π) (db : NodeMap α π)
    (h : k ≠ i) : dbGet ((k, n) :: db) i = dbGet db i := by
  simp only [dbGet, if_neg h]

theorem dbGet_dbSet_ne {α π : Type} (db : NodeMap α π) (id i : ℕ) (m : Node α π)
    (h : i ≠ id) : dbGet (dbSet db id m) i = dbGet db i := by
  induction db with
  | nil => rfl
  | cons p rest ih =>
    by_cases hk : p.1 = id
    · have hne : p.1 ≠ i := by rw [hk]; exact Ne.symm h
      simp [dbSet, dbGet, hk, hne, Ne.symm h, ih]
    · simp [dbSet, dbGet, hk, ih]

theorem dbGet_dbSet_self {α π : Type} (db : NodeMap α π) (id : ℕ)
    (m n : Node α π) (h : dbGet db id = some n) :
    dbGet (dbSet db id m) id = some m := by
  induction db with
  | nil => cases h
  | cons p rest ih =>
    by_cases hk : p.1 = id
    · simp [dbSet, dbGet, hk]
    · simp only [dbGet, if_neg hk] at h
      simp [dbSet, dbGet, hk]
      exact ih h

theorem expansion_preserves {σ α π : Type} (G : GameI σ α π) (db : NodeMap α π)
    (ctr id i : ℕ) (g : σ) (out : NodeMap α π × ℕ × ℕ × σ) (n₀ : Node α π)
    (h : expansion G db ctr id g = some out)
    (hctr : dbGet db ctr = none) (hget : dbGet db i = some n₀) :
    ∃ n, dbGet out.1 i = some n ∧ n.visits = n₀.visits := by
  have hictr : i ≠ ctr := by
    intro e; rw [e, hctr] at hget; cases hget
  unfold expansion at h
  split at h
  · exact Option.noConfusion h
  next n heq =>
    have hidctr : ctr ≠ id := by
      intro e; rw [e, heq] at hctr; cases hctr
    split at h
    · -- terminal node: the store is returned unchanged
      injection h with h'
      subst h'
      exact ⟨n₀, hget, rfl⟩
    next hdone =>
      split at h
      · exact Option.noConfusion h
      next a hlast =>
        split at h
        · exact Option.noConfusion h
        next r g' hstep =>
          split at h
          · exact Option.noConfusion h
          next n' hdb2 =>
            injection h with h'
            subst h'
            have hval : n' = { n with unvisitedActions := n.unvisitedActions.dropLast } := by
              have := hdb2
              rw [dbGet_cons_ne ctr id _ _ hidctr,
                dbGet_dbSet_self db id _ n heq] at this
              injection this with h''
              exact h''.symm
            by_cases hi : i = id
            · subst hi
              refine ⟨_, dbGet_dbSet_self _ i _ _ hdb2, ?_⟩
              have hnn : n = n₀ := by rw [heq] at hget; injection hget
              subst hnn
              rw [hval]
            · refine ⟨n₀, ?_, rfl⟩
              rw [dbGet_dbSet_ne _ id i _ hi, dbGet_cons_ne ctr i _ _ (Ne.symm hictr),
                dbGet_dbSet_ne _ id i _ hi]
              exact hget

theorem dbGet_root_db0 {σ α π : Type} (G : GameI σ α π) (g : σ) :
    dbGet [(0, newNode G g none)] 0 = some (newNode G g none) := rfl

/-- C1: the live `Mcts::search` does not satisfy the termination
contract: on the empty (non-terminal) tic-tac-toe board it reaches the
`todo!()` at src/mcts.rs line 69 after one selection/expansion/rollout
pass — for every possible `best_child` procedure — and never returns a
legal action; it does not even take an iteration-budget parameter. -/
theorem c1_search_hits_todo :
    ∀ choose : Chooser (ℕ × ℕ) Player,
      (mctsSearch gameTT choose rngZero 20 ttNew).result =
        Except.error SearchHalt.todoNotImplemented :=
  fun _ => rfl

/-- C3: visit conservation fails on the live code: after `search` there
is no backpropagation at all, so for every game, chooser, random stream
and fuel the root's `visits` is still 0 (never equal to any positive
iteration count), and `search` never returns an action in the first
place. -/
theorem c3_root_visits_zero {σ α π : Type} (G : GameI σ α π)
    (choose : Chooser α π) (rng : ℕ → ℕ) (fuel : ℕ) (g : σ) :
    (∃ n, dbGet (mctsSearch G choose rng fuel g).db 0 = some n ∧ n.visits = 0) ∧
    ∀ a, (mctsSearch G choose rng fuel g).result ≠ Except.ok a := by
  cases hsel : selection choose (fuel + 1) [(0, newNode G g none)] 0 with
  | none =>
    constructor
    · exact ⟨newNode G g none, by simp [mctsSearch, hsel, dbGet], rfl⟩
    · intro a h
      simp [mctsSearch, hsel] at h
  | some pl =>
    obtain ⟨path, leaf⟩ := pl
    cases happ : applyActions G g path with
    | none =>
      constructor
      · exact ⟨newNode G g none, by simp [mctsSearch, hsel, happ, dbGet], rfl⟩
      · intro a h
        simp [mctsSearch, hsel, happ] at h
    | some g1 =>
      cases hexp : expansion G [(0, newNode G g none)] 1 leaf g1 with
      | none =>
        constructor
        · exact ⟨newNode G g none, by simp [mctsSearch, hsel, happ, hexp, dbGet], rfl⟩
        · intro a h
          simp [mctsSearch, hsel, happ, hexp] at h
      | some out =>
        obtain ⟨db1, c2, nid, g2⟩ := out
        obtain ⟨n, hn, hv⟩ := expansion_preserves G [(0, newNode G g none)] 1 leaf 0 g1
          (db1, c2, nid, g2) (newNode G g none) hexp (by simp [dbGet]) (by simp [dbGet])
        cases hsim : simulation G rng fuel g2 with
        | none =>
          constructor
          · exact ⟨n, by simpa [mctsSearch, hsel, happ, hexp, hsim] using hn, hv⟩
          · intro a h
            simp [mctsSearch, hsel, happ, hexp, hsim] at h
        | some w =>
          constructor
          · exact ⟨n, by simpa [mctsSearch, hsel, happ, hexp, hsim] using hn, hv⟩
          · intro a h
            simp [mctsSearch, hsel, happ, hexp, hsim] at h

/-- C4: there is no designed fail-fast error path for a terminal input:
on a full drawn board (no legal action) the live `search` reaches the
very same unconditional `todo!()` panic as on any other input — it does
not propagate a distinguishable error value (its return type `T::Action`
has no error channel at all). -/
theorem c4_terminal_same_todo :
    ∀ choose : Chooser (ℕ × ℕ) Player,
      (mctsSearch gameTT choose rngZero 5 drawG).result =
        Except.error SearchHalt.todoNotImplemented :=
  fun _ => rfl

/-- C7: expansion on a terminal node is a pure no-op: it returns the
node itself, the unchanged store, the unchanged fresh-id counter and
the unchanged game state — no node is created, no child is linked, no
unvisited action is removed. -/
theorem c7_expansion_terminal_noop {σ α π : Type} (G : GameI σ α π)
    (db : NodeMap α π) (ctr id : ℕ) (g : σ) (n : Node α π)
    (h1 : dbGet db id = some n) (h2 : n.done = true) :
    expansion G db ctr id g = some (db, ctr, id, g) := by
  simp only [expansion, h1, h2, if_true]

/-- Witness for C7 at a concrete input: a store holding one terminal
node (the full drawn board). -/
theorem c7_witness :
    dbGet [(0, newNode gameTT drawG none)] 0 = some (newNode gameTT drawG none) ∧
    (newNode gameTT drawG none).done = true ∧
    expansion gameTT [(0, newNode gameTT drawG none)] 7 0 drawG =
      some ([(0, newNode gameTT drawG none)], 7, 0, drawG) :=
  ⟨rfl, by decide,
    c7_expansion_terminal_noop gameTT [(0, newNode gameTT drawG none)] 7 0 drawG
      (newNode gameTT drawG none) rfl (by decide)⟩

theorem isFirstMax_le {β γ : Type} [LinearOrder γ] (f : β → γ) (l : List β)
    (m : β) (h : IsFirstMax f l m) : ∀ y ∈ l, f y ≤ f m := by
  obtain ⟨l₁, l₂, rfl, h1, h2⟩ := h
  intro y hy
  rcases List.mem_append.1 hy with hy | hy
  · exact (h1 y hy).le
  · rcases List.mem_cons.1 hy with rfl | hy
    · exact le_refl _
    · exact h2 y hy

theorem selectGo_cons_lt {β γ : Type} [LinearOrder γ] (f : β → γ) (b x : β)
    (xs : List β) (h : f b < f x) : selectGo f b (x :: xs) = selectGo f x xs := by
  simp [selectGo, h]

theorem selectGo_cons_ge {β γ : Type} [LinearOrder γ] (f : β → γ) (b x : β)
    (xs : List β) (h : ¬f b < f x) : selectGo f b (x :: xs) = selectGo f b xs := by
  simp [selectGo, h]

theorem selectGo_isFirstMax {β γ : Type} [LinearOrder γ] (f : β → γ) (b : β)
    (l : List β) : IsFirstMax f (b :: l) (selectGo f b l) := by
  induction l generalizing b with
  | nil => exact ⟨[], [], rfl, by simp, by simp⟩
  | cons x xs ih =>
    by_cases hbx : f b < f x
    · obtain ⟨l₁, l₂, heq, h1, h2⟩ := ih x
      have hle : f x ≤ f (selectGo f x xs) :=
        isFirstMax_le f (x :: xs) _ (ih x) x (List.mem_cons_self x xs)
      refine ⟨b :: l₁, l₂, ?_, ?_, ?_⟩
      · rw [selectGo_cons_lt f b x xs hbx, List.cons_append, ← heq]
      · intro y hy
        rcases List.mem_cons.1 hy with rfl | hy
        · rw [selectGo_cons_lt f y x xs hbx]
          exact lt_of_lt_of_le hbx hle
        · rw [selectGo_cons_lt f b x xs hbx]
          exact h1 y hy
      · intro y hy
        rw [selectGo_cons_lt f b x xs hbx]
        exact h2 y hy
    · obtain ⟨l₁, l₂, heq, h1, h2⟩ := ih b
      have hxb : f x ≤ f b := not_lt.1 hbx
      cases l₁ with
      | nil =>
        have hinj := List.cons.inj (List.nil_append _ ▸ heq)
        have hb : b = selectGo f b xs := hinj.1
        have hxs : xs = l₂ := hinj.2
        refine ⟨[], x :: xs, ?_, by simp, ?_⟩
        · rw [selectGo_cons_ge f b x xs hbx, List.nil_append, ← hb]
        · intro y hy
          rw [selectGo_cons_ge f b x xs hbx, ← hb]
          rcases List.mem_cons.1 hy with rfl | hy
          · exact hxb
          · rw [hxs] at hy
            rw [hb] at hxb ⊢
            exact h2 y hy
      | cons c l₁' =>
        have hinj := List.cons.inj (List.cons_append c l₁' _ ▸ heq)
        have hbc : b = c := hinj.1
        have hxs : xs = l₁' ++ selectGo f b xs :: l₂ := hinj.2
        have hbm : f b < f (selectGo f b xs) := by
          nth_rewrite 1 [hbc]
          exact h1 c (List.mem_cons_self c l₁')
        refine ⟨b :: x :: l₁', l₂, ?_, ?_, ?_⟩
        · rw [selectGo_cons_ge f b x xs hbx]
          simp only [List.cons_append]
          rw [← hxs]
        · intro y hy
          rw [selectGo_cons_ge f b x xs hbx]
          rcases List.mem_cons.1 hy with rfl | hy
          · exact hbm
          · rcases List.mem_cons.1 hy with rfl | hy
            · exact lt_of_le_of_lt hxb hbm
            · exact h1 y (List.mem_cons_of_mem c hy)
        · intro y hy
          rw [selectGo_cons_ge f b x xs hbx]
          exact h2 y hy

/-- C2: the modelled child-evaluation rule (the live `best_child` body
is `todo!()`): during descent a child is scored by the inverted
normalised win-rate plus the exploration bonus
`c * sqrt(2 ln(parent.visits) / child.visits)`, for the final choice by
the inverted win-rate alone, and in both cases the chosen child is the
first one attaining the strictly greatest score (an earlier child keeps
a tie, a later child must score strictly greater); the score is never
the raw, uninverted win-rate. -/
theorem c2_ucb1_first_argmax {α π : Type} (c : ℝ) (db : NodeMap α π) (id : ℕ)
    (n : Node α π) (l : List ((α × ℕ) × Node α π))
    (h1 : dbGet db id = some n) (h2 : resolveChildren db n = some l) (h3 : l ≠ []) :
    (∃ best, selectBestBy (fun q => ucb1Value c n.visits q.2) l = some best ∧
      bestChildUCB c db id = some best.1 ∧
      IsFirstMax (fun q => ucb1Value c n.visits q.2) l best) ∧
    (∃ bestF, selectBestBy (fun q => finalValue q.2) l = some bestF ∧
      bestActionFinal db id = some bestF.1.1 ∧
      IsFirstMax (fun q => finalValue q.2) l bestF) := by
  cases l with
  | nil => exact absurd rfl h3
  | cons x xs =>
    constructor
    · refine ⟨selectGo (fun q => ucb1Value c n.visits q.2) x xs, rfl, ?_,
        selectGo_isFirstMax _ x xs⟩
      simp [bestChildUCB, h1, h2, selectBestBy]
    · refine ⟨selectGo (fun q => finalValue q.2) x xs, rfl, ?_,
        selectGo_isFirstMax _ x xs⟩
      simp [bestActionFinal, h1, h2, selectBestBy]

/-- Witness for C2: a parent with two resolved children; the theorem
applies with every hypothesis discharged on this concrete store. -/
theorem c2_witness :
    dbGet wDb 0 = some wParent ∧ resolveChildren wDb wParent = some wChildren ∧
    ((∃ best, selectBestBy (fun q => ucb1Value 0 wParent.visits q.2) wChildren = some best ∧
      bestChildUCB 0 wDb 0 = some best.1 ∧
      IsFirstMax (fun q => ucb1Value 0 wParent.visits q.2) wChildren best) ∧
    (∃ bestF, selectBestBy (fun q => finalValue q.2) wChildren = some bestF ∧
      bestActionFinal wDb 0 = some bestF.1.1 ∧
      IsFirstMax (fun q => finalValue q.2) wChildren bestF)) :=
  ⟨rfl, rfl,
    c2_ucb1_first_argmax 0 wDb 0 wParent wChildren rfl rfl (by simp [wChildren])⟩

theorem selection_descends {α π : Type} (choose : Chooser α π) (fuel : ℕ)
    (db : NodeMap α π) (root : ℕ) (path : List α) (leaf : ℕ)
    (h : selection choose fuel db root = some (path, leaf)) :
    Descends choose db root path leaf ∧
      ∃ n, dbGet db leaf = some n ∧ (n.done = true ∨ n.unvisitedActions ≠ []) := by
  induction fuel generalizing root path leaf with
  | zero => cases h
  | succ fuel ih =>
    unfold selection at h
    split at h
    · exact Option.noConfusion h
    next n heq =>
      split at h
      next hdone =>
        injection h with h'
        injection h' with hp hl
        subst hp; subst hl
        exact ⟨Descends.nil root, n, heq, Or.inl hdone⟩
      next hdone =>
        split at h
        next hemp =>
          split at h
          · exact Option.noConfusion h
          next a cid hchoose =>
            split at h
            · exact Option.noConfusion h
            next p l hsel =>
              injection h with h'
              injection h' with hp hl
              subst hp; subst hl
              obtain ⟨hd, hn⟩ := ih cid p l hsel
              refine ⟨Descends.cons root n a cid p l heq ?_ ?_ hchoose hd, hn⟩
              · exact Bool.not_eq_true _ ▸ Bool.of_not_eq_true hdone
              · exact List.isEmpty_iff.1 hemp
        next hemp =>
          injection h with h'
          injection h' with hp hl
          subst hp; subst hl
          refine ⟨Descends.nil root, n, heq, Or.inr ?_⟩
          intro e
          exact hemp (by simp [e])

/-- C6: the selection phase, run with the (spec-modelled) UCB1 chooser,
descends from the start node through chooser-selected children exactly
while the current node is non-terminal with no untried action, records
the action of every descent step in order, and the node it returns is
one that is terminal or still has an untried action. -/
theorem c6_selection_stops_first {α π : Type} (c : ℝ) (fuel : ℕ)
    (db : NodeMap α π) (root : ℕ) (path : List α) (leaf : ℕ)
    (h : selection (bestChildUCB c) fuel db root = some (path, leaf)) :
    Descends (bestChildUCB c) db root path leaf ∧
      ∃ n, dbGet db leaf = some n ∧ (n.done = true ∨ n.unvisitedActions ≠ []) :=
  selection_descends (bestChildUCB c) fuel db root path leaf h

/-- Witness for C6: on the one-node store of a fresh root (empty
board), selection stops immediately at the root, which still has
untried actions. -/
theorem c6_witness :
    selection (bestChildUCB 0) 1 [(0, newNode gameTT ttNew none)] 0 = some ([], 0) ∧
    (Descends (bestChildUCB 0) [(0, newNode gameTT ttNew none)] 0 [] 0 ∧
      ∃ n, dbGet [(0, newNode gameTT ttNew none)] 0 = some n ∧
        (n.done = true ∨ n.unvisitedActions ≠ [])) :=
  ⟨rfl, c6_selection_stops_first 0 1 [(0, newNode gameTT ttNew none)] 0 [] 0 rfl⟩

/-- C8: one unfolding of the rollout loop on an arbitrary game state:
it stops immediately with `some w` when the state reports winner `w`;
it stops immediately with no winner when the state has no winner and no
legal action; otherwise the action it applies is the rng-chosen member
of the legal-action list (a legal action), after which it repeats on
the advanced state; it consumes only the game state, never the node
store (the store does not even occur in `simulation`). -/
theorem c8_simulation_loop {σ α π : Type} (G : GameI σ α π) (rng : ℕ → ℕ)
    (fuel : ℕ) (g : σ) :
    (∀ w, G.checkWinner g = some w → simulation G rng (fuel + 1) g = some (some w)) ∧
    (G.checkWinner g = none → (G.getAvailableMoves g).isEmpty = true →
      simulation G rng (fuel + 1) g = some none) ∧
    (G.checkWinner g = none → (G.getAvailableMoves g).isEmpty = false →
      ∃ a, (G.getAvailableMoves g)[rng 0 % (G.getAvailableMoves g).length]? = some a ∧
        a ∈ G.getAvailableMoves g ∧
        (G.step g a = none → simulation G rng (fuel + 1) g = none) ∧
        ∀ r g', G.step g a = some (r, g') →
          simulation G rng (fuel + 1) g = simulation G (shiftRng rng) fuel g') := by
  refine ⟨?_, ?_, ?_⟩
  · intro w hw
    simp [simulation, hw]
  · intro hw hmv
    simp [simulation, hw, hmv]
  · intro hw hmv
    have hlen : 0 < (G.getAvailableMoves g).length := by
      cases hl : G.getAvailableMoves g with
      | nil => rw [hl] at hmv; cases hmv
      | cons x xs => simp [hl]
    have hidx : rng 0 % (G.getAvailableMoves g).length < (G.getAvailableMoves g).length :=
      Nat.mod_lt _ hlen
    refine ⟨_, List.getElem?_eq_getElem hidx, List.getElem?_mem (List.getElem?_eq_getElem hidx),
      ?_, ?_⟩
    · intro hstep
      simp [simulation, hw, hmv, List.getElem?_eq_getElem hidx, hstep]
    · intro r g' hstep
      simp [simulation, hw, hmv, List.getElem?_eq_getElem hidx, hstep]

/-- Witness for C8 at the full drawn board: no winner and no legal
action, so the rollout stops at once with no winner. -/
theorem c8_witness :
    gameTT.checkWinner drawG = none ∧ (gameTT.getAvailableMoves drawG).isEmpty = true ∧
    simulation gameTT rngZero 1 drawG = some none :=
  ⟨rfl, rfl, (c8_simulation_loop gameTT rngZero 0 drawG).2.1 rfl rfl⟩

theorem mem_ttMoves {s : TicTacToe} {r c : ℕ} :
    (r, c) ∈ ttMoves s ↔ ∃ (hr : r < 3) (hc : c < 3), s.spots ⟨r, hr⟩ ⟨c, hc⟩ = .Empty := by
  unfold ttMoves
  simp only [List.mem_flatMap, List.mem_filterMap, List.mem_finRange, true_and]
  constructor
  · rintro ⟨i, j, hj⟩
    by_cases hsp : s.spots i j = .Empty
    · rw [if_pos hsp] at hj
      injection hj with hj
      have h1 : i.val = r := congrArg Prod.fst hj
      have h2 : j.val = c := congrArg Prod.snd hj
      refine ⟨h1 ▸ i.isLt, h2 ▸ j.isLt, ?_⟩
      have hi : (⟨r, h1 ▸ i.isLt⟩ : Fin 3) = i := by
        apply Fin.ext
        exact h1.symm
      have hjf : (⟨c, h2 ▸ j.isLt⟩ : Fin 3) = j := by
        apply Fin.ext
        exact h2.symm
      rw [hi, hjf]
      exact hsp
    · rw [if_neg hsp] at hj
      cases hj
  · rintro ⟨hr, hc, hsp⟩
    exact ⟨⟨r, hr⟩, ⟨c, hc⟩, by rw [if_pos hsp]⟩

theorem ttStep_ok_of_mem (s : TicTacToe) (r c : ℕ) (h : (r, c) ∈ ttMoves s) :
    ∃ q s', stepTT s (r, c) = (s', Except.ok q) := by
  obtain ⟨hr, hc, hsp⟩ := mem_ttMoves.1 h
  have heq : stepTT s (r, c) =
      (({ spots := fun i j =>
            if i = ⟨r, hr⟩ ∧ j = ⟨c, hc⟩ then .Filled s.currentPlayer else s.spots i j
          currentPlayer := otherPlayer s.currentPlayer } : TicTacToe),
        Except.ok (if (ttCheckWinner
            { spots := fun i j =>
                if i = ⟨r, hr⟩ ∧ j = ⟨c, hc⟩ then .Filled s.currentPlayer else s.spots i j
              currentPlayer := otherPlayer s.currentPlayer }).isSome then 1 else 0)) := by
    simp only [stepTT]
    rw [dif_pos hr, dif_pos hc, hsp]
  exact ⟨_, _, heq⟩

theorem ttStep_err_of_not_mem (s : TicTacToe) (r c : ℕ) (hr : r < 3) (hc : c < 3)
    (h : (r, c) ∉ ttMoves s) :
    stepTT s (r, c) = (s, Except.error StepErr.spotFilled) := by
  cases hspv : s.spots ⟨r, hr⟩ ⟨c, hc⟩ with
  | Empty => exact absurd (mem_ttMoves.2 ⟨hr, hc, hspv⟩) h
  | Filled p =>
    simp only [stepTT]
    rw [dif_pos hr, dif_pos hc, hspv]

/-- Counterexample for C9 as stated: the out-of-range action `(3, 0)`
is not among the available moves of the fresh board, yet `step` does
not fail with the illegal-move (`Spot is already filled`) error — it
dies with the Rust index-out-of-bounds panic of `self.spots[row][col]`
instead of returning an error. -/
theorem c9_counterexample :
    (3, 0) ∉ ttMoves ttNew ∧
    (stepTT ttNew (3, 0)).2 = Except.error StepErr.indexOutOfBounds ∧
    (stepTT ttNew (3, 0)).2 ≠ Except.error StepErr.spotFilled := by
  decide

/-- C9 (amended): for every state and every in-range action (row and
column below 3), `step` succeeds with a scalar reward exactly when the
action is among `get_available_moves`, and fails with the
illegal-move error exactly when it is not; out-of-range actions
instead hit an index-out-of-bounds panic. -/
theorem c9_step_legality (s : TicTacToe) (r c : ℕ) (hr : r < 3) (hc : c < 3) :
    ((r, c) ∈ ttMoves s → ∃ q s', stepTT s (r, c) = (s', Except.ok q)) ∧
    ((r, c) ∉ ttMoves s → stepTT s (r, c) = (s, Except.error StepErr.spotFilled)) :=
  ⟨ttStep_ok_of_mem s r c, ttStep_err_of_not_mem s r c hr hc⟩

/-- Witness for C9 on the fresh board at the in-range action (0, 0). -/
theorem c9_witness :
    0 < 3 ∧
    (((0, 0) ∈ ttMoves ttNew → ∃ q s', stepTT ttNew (0, 0) = (s', Except.ok q)) ∧
      ((0, 0) ∉ ttMoves ttNew → stepTT ttNew (0, 0) = (ttNew, Except.error StepErr.spotFilled))) :=
  ⟨by decide, c9_step_legality ttNew 0 0 (by decide) (by decide)⟩

/-- C10: whenever `TicTacToe::step` returns an error (and also when it
panics on an out-of-range index), the state is untouched: every board
spot and the current player are exactly as before the call. -/
theorem c10_step_error_frame (s : TicTacToe) (a : ℕ × ℕ) (e : StepErr)
    (h : (stepTT s a).2 = Except.error e) :
    (stepTT s a).1.spots = s.spots ∧ (stepTT s a).1.currentPlayer = s.currentPlayer := by
  by_cases hr : a.1 < 3
  · by_cases hc : a.2 < 3
    · cases hspv : s.spots ⟨a.1, hr⟩ ⟨a.2, hc⟩ with
      | Empty =>
        exfalso
        obtain ⟨q, s', heq⟩ :=
          ttStep_ok_of_mem s a.1 a.2 (mem_ttMoves.2 ⟨hr, hc, hspv⟩)
        rw [Prod.mk.eta] at heq
        rw [heq] at h
        simp at h
      | Filled p =>
        have hnm : (a.1, a.2) ∉ ttMoves s := by
          intro hm
          obtain ⟨hr', hc', hsp⟩ := mem_ttMoves.1 hm
          exact Spot.noConfusion (hsp.symm.trans hspv)
        have heq := ttStep_err_of_not_mem s a.1 a.2 hr hc hnm
        rw [Prod.mk.eta] at heq
        rw [heq]
        exact ⟨rfl, rfl⟩
    · constructor <;> simp [stepTT, hr, hc]
  · constructor <;> simp [stepTT, hr]

/-- Witness for C10: stepping onto the already-filled corner of the
drawn board errs and leaves the state unchanged. -/
theorem c10_witness :
    (stepTT drawG (0, 0)).2 = Except.error StepErr.spotFilled ∧
    ((stepTT drawG (0, 0)).1.spots = drawG.spots ∧
      (stepTT drawG (0, 0)).1.currentPlayer = drawG.currentPlayer) :=
  ⟨by decide, c10_step_error_frame drawG (0, 0) StepErr.spotFilled (by decide)⟩

theorem ttMoves_row_fst (s : TicTacToe) (i : Fin 3) (x : ℕ × ℕ)
    (hx : x ∈ (List.finRange 3).filterMap fun j =>
      if s.spots i j = .Empty then some (i.val, j.val) else none) : x.1 = i.val := by
  obtain ⟨j, _, hj⟩ := List.mem_filterMap.1 hx
  by_cases h1 : s.spots i j = .Empty
  · rw [if_pos h1] at hj
    injection hj with hj
    exact (congrArg Prod.fst hj).symm
  · rw [if_neg h1] at hj
    cases hj

theorem ttMoves_nodup (s : TicTacToe) : (ttMoves s).Nodup := by
  unfold ttMoves
  rw [List.nodup_flatMap]
  constructor
  · intro i _
    refine List.Nodup.filterMap ?_ (List.nodup_finRange 3)
    intro j j' b hj hj'
    rw [Option.mem_def] at hj hj'
    by_cases h1 : s.spots i j = .Empty
    · rw [if_pos h1] at hj
      by_cases h2 : s.spots i j' = .Empty
      · rw [if_pos h2] at hj'
        injection hj with hj
        injection hj' with hj'
        apply Fin.ext
        exact congrArg Prod.snd (hj.trans hj'.symm)
      · rw [if_neg h2] at hj'
        cases hj'
    · rw [if_neg h1] at hj
      cases hj
  · refine List.Pairwise.imp ?_ (List.nodup_finRange 3)
    intro i i' hne x hx hx'
    exact hne (Fin.ext ((ttMoves_row_fst s i x hx).symm.trans (ttMoves_row_fst s i' x hx')))

/-- C5: the tree-shape invariant holds at every store state of a
(non-terminal) search call.  After the root is created its children
and unvisited actions partition the initial state's legal actions; the
final store consists of exactly the mutated root and the one expanded
child, the root's children keys and remaining unvisited actions are
disjoint and still partition the same legal-action list, the child
partitions the legal actions of its own creation state, the root's
unvisited list only shrank (it lost exactly the popped action) and its
children only grew (from empty to the one link). -/
theorem c5_tree_shape (g : TicTacToe) (choose : Chooser (ℕ × ℕ) Player)
    (rng : ℕ → ℕ) (fuel : ℕ) (hg : ttDone g = false) :
    NodeInv (ttMoves g) (newNode gameTT g none) ∧
    ∃ a q g', (ttMoves g).getLast? = some a ∧ stepTT g a = (g', Except.ok q) ∧
      (mctsSearch gameTT choose rng fuel g).db =
        [(1, newNode gameTT g' (some 0)),
         (0, { newNode gameTT g none with
                 children := [(a, 1)]
                 unvisitedActions := (ttMoves g).dropLast })] ∧
      NodeInv (ttMoves g)
        { newNode gameTT g none with
            children := [(a, 1)]
            unvisitedActions := (ttMoves g).dropLast } ∧
      NodeInv (ttMoves g') (newNode gameTT g' (some 0)) ∧
      (ttMoves g).dropLast ⊆ (newNode gameTT g none).unvisitedActions ∧
      ∀ p ∈ (newNode gameTT g none).children,
        p ∈ ({ newNode gameTT g none with
                 children := [(a, 1)]
                 unvisitedActions := (ttMoves g).dropLast } : Node (ℕ × ℕ) Player).children := by
  have hmv : (ttMoves g).isEmpty = false := by
    cases he : (ttMoves g).isEmpty
    · rfl
    · exfalso
      unfold ttDone at hg
      rw [he, Bool.or_true] at hg
      cases hg
  have hmvne : ttMoves g ≠ [] := fun e => by simp [e] at hmv
  obtain ⟨a, hlast⟩ : ∃ a, (ttMoves g).getLast? = some a :=
    ⟨_, List.getLast?_eq_getLast _ hmvne⟩
  have hmem : a ∈ ttMoves g := List.mem_of_getLast?_eq_some hlast
  obtain ⟨q, g', hstep0⟩ := ttStep_ok_of_mem g a.1 a.2 (by rwa [Prod.mk.eta])
  rw [Prod.mk.eta] at hstep0
  have hstepG : gameTT.step g a = some (q, g') := by simp [gameTT, hstep0]
  have happend : (ttMoves g).dropLast ++ [a] = ttMoves g :=
    List.dropLast_append_getLast? a (Option.mem_def.2 hlast)
  have hnd : ((ttMoves g).dropLast ++ [a]).Nodup := by
    rw [happend]
    exact ttMoves_nodup g
  have hanotin : a ∉ (ttMoves g).dropLast := fun hmem' =>
    (List.disjoint_of_nodup_append hnd) hmem' (List.mem_singleton_self a)
  have hsel : selection choose (fuel + 1) [(0, newNode gameTT g none)] 0 = some ([], 0) := by
    simp [selection, dbGet, newNode, gameTT, hg, hmv]
  have hexp : expansion gameTT [(0, newNode gameTT g none)] 1 0 g =
      some ([(1, newNode gameTT g' (some 0)),
             (0, { newNode gameTT g none with
                     children := [(a, 1)]
                     unvisitedActions := (ttMoves g).dropLast })], 2, 1, g') := by
    simp [expansion, dbGet, dbSet, newNode, gameTT, hg, hlast, hstepG, hstep0]
  refine ⟨by simp [NodeInv, newNode, gameTT], a, q, g', hlast, hstep0, ?_, ?_, ?_, ?_, ?_⟩
  · cases hsim : simulation gameTT rng fuel g' with
    | none => simp [mctsSearch, hsel, applyActions, hexp, hsim]
    | some w => simp [mctsSearch, hsel, applyActions, hexp, hsim]
  · constructor
    · show ((({ newNode gameTT g none with
          children := [(a, 1)]
          unvisitedActions := (ttMoves g).dropLast } : Node (ℕ × ℕ) Player)).children.map
            Prod.fst).toFinset ∪ _ = _
      conv_rhs => rw [← happend]
      simp [List.toFinset_append, Finset.union_comm]
    · intro x hx
      simp only [List.map_cons, List.map_nil, List.mem_singleton] at hx
      subst hx
      exact hanotin
  · simp [NodeInv, newNode, gameTT]
  · intro x hx
    have hx' : x ∈ ttMoves g := List.dropLast_subset _ hx
    simpa [newNode, gameTT] using hx'
  · intro p hp
    simp [newNode] at hp

/-- Witness for C5 at the empty board with a trivial chooser, zero
extra fuel and the all-zero random stream. -/
theorem c5_witness :
    ttDone ttNew = false ∧
    (NodeInv (ttMoves ttNew) (newNode gameTT ttNew none) ∧
    ∃ a q g', (ttMoves ttNew).getLast? = some a ∧ stepTT ttNew a = (g', Except.ok q) ∧
      (mctsSearch gameTT (fun _ _ => none) rngZero 0 ttNew).db =
        [(1, newNode gameTT g' (some 0)),
         (0, { newNode gameTT ttNew none with
                 children := [(a, 1)]
                 unvisitedActions := (ttMoves ttNew).dropLast })] ∧
      NodeInv (ttMoves ttNew)
        { newNode gameTT ttNew none with
            children := [(a, 1)]
            unvisitedActions := (ttMoves ttNew).dropLast } ∧
      NodeInv (ttMoves g') (newNode gameTT g' (some 0)) ∧
      (ttMoves ttNew).dropLast ⊆ (newNode gameTT ttNew none).unvisitedActions ∧
      ∀ p ∈ (newNode gameTT ttNew none).children,
        p ∈ ({ newNode gameTT ttNew none with
                 children := [(a, 1)]
                 unvisitedActions := (ttMoves ttNew).dropLast } : Node (ℕ × ℕ) Player).children) :=
  ⟨rfl, c5_tree_shape ttNew (fun _ _ => none) rngZero 0 rfl⟩

end Muzero
